import Mathlib

/-!
Shallow embedding of `src/custom_vector.h` (template class `Vector<T>` built on
`RawMemory<T>`).

A `Vector<T>` object is observationally a pair: the capacity of its `RawMemory`
block (`data.Capacity()`) and the list of live constructed elements
`[0, size)` in buffer order.  We embed it as the structure `Vec` below, with
`Size v = v.elems.length` (the source maintains `size ≤ data.Capacity()` as an
invariant; theorems take it as a hypothesis `v.Wf` where it matters).

Element values are modelled with ordinary value semantics: a successful move or
copy of an element transfers/duplicates its value, and the moved-from original
still occupies its slot until destroyed.  Where a claim is about object
lifetimes (construction/destruction/deallocation order) we use an explicit
event-trace model (`Ev` below); where a claim is about exception behaviour we
use `Except`-returning functions whose error payload is the vector state
observable after the exception has propagated.
-/

/-- Observable state of a `Vector<T>`: `cap` is `data.Capacity()` (the
`RawMemory` block's capacity); `elems` lists the live constructed elements,
in buffer order, occupying slots `[0, elems.length)`. -/
structure Vec (α : Type) where
  cap : Nat
  elems : List α
  deriving Repr, DecidableEq

namespace Vec

/-- Embeds `Vector::Size()` — the number of live elements. -/
def Size (v : Vec α) : Nat := v.elems.length

/-- Embeds `Vector::Capacity()` — forwards to `data.Capacity()`. -/
def Capacity (v : Vec α) : Nat := v.cap

/-- The class invariant `size ≤ data.Capacity()` maintained by every
constructor and mutator of `Vector<T>`. -/
def Wf (v : Vec α) : Prop := v.elems.length ≤ v.cap

/-- Embeds `Vector()` — default construction: null buffer, capacity 0, size 0. -/
def empty : Vec α := ⟨0, []⟩

/-- Embeds `Vector(Vector&& other_)` — move construction.  `data(std::move(other_.data))`
runs `RawMemory`'s move constructor, which takes the buffer pointer and capacity
and leaves the source's buffer null with capacity 0; `size(std::exchange(other_.size, 0))`
takes the size and zeroes the source's.  Returns (destination, source-after). -/
def moveCtor (src : Vec α) : Vec α × Vec α :=
  (⟨src.cap, src.elems⟩, ⟨0, []⟩)

/-- Embeds `Vector::operator=(Vector&& other_)` — move assignment.  The body is
`Swap(other_); return *this;`: it exchanges `data` (buffer + capacity) and
`size` of the two objects.  Returns (destination-after, source-after). -/
def moveAssign (dst src : Vec α) : Vec α × Vec α :=
  (src, dst)

/-- Embeds `Vector::Reserve(new_capacity_)`: early-returns when
`new_capacity_ <= data.Capacity()`; otherwise allocates `RawMemory new_data(new_capacity_)`,
transfers the `size` live elements into it in order (`std::uninitialized_move_n`
when the element's move constructor is noexcept or the type is non-copyable,
else `std::uninitialized_copy_n` — either way the values land unchanged, in
order), destroys the originals, and swaps buffers. -/
def Reserve (v : Vec α) (new_capacity : Nat) : Vec α :=
  if new_capacity ≤ v.cap then v
  else ⟨new_capacity, v.elems⟩

/-- Embeds `Vector::Resize(new_size_)`: when `new_size_ < size` it destroys the
trailing `size - new_size_` elements; otherwise, when `new_size_ > data.Capacity()`,
it first calls `Reserve(std::max(data.Capacity() * 2, new_size_))`, and then
value-constructs `new_size_ - size` elements at the end
(`std::uninitialized_value_construct_n`), modelled as `default` values.
Finally `size = new_size_`. -/
def Resize [Inhabited α] (v : Vec α) (new_size : Nat) : Vec α :=
  if new_size < v.Size then
    ⟨v.cap, v.elems.take new_size⟩
  else
    let v' := if new_size > v.cap then v.Reserve (max (v.cap * 2) new_size) else v
    ⟨v'.cap, v'.elems ++ List.replicate (new_size - v.Size) default⟩

/-- Embeds `Vector::PushBack(value_)`: when `data.Capacity() <= size` it allocates
`RawMemory new_data(size == 0 ? 1 : size * 2)`, constructs the new element at
`new_data + size`, transfers the old elements into slots `[0, size)`, destroys
the originals and swaps; otherwise it constructs in place at `data + size`.
Either way `size++`. -/
def PushBack (v : Vec α) (value : α) : Vec α :=
  if v.cap ≤ v.Size then
    ⟨if v.Size = 0 then 1 else v.Size * 2, v.elems ++ [value]⟩
  else
    ⟨v.cap, v.elems ++ [value]⟩

/-- Embeds `Vector::EmplaceBack(args...)`: identical control flow to `PushBack`,
with the element constructed from `args...`; we model the constructed value
directly. -/
def EmplaceBack (v : Vec α) (value : α) : Vec α :=
  if v.cap ≤ v.Size then
    ⟨if v.Size = 0 then 1 else v.Size * 2, v.elems ++ [value]⟩
  else
    ⟨v.cap, v.elems ++ [value]⟩

/-- Embeds `Vector::PopBack()`: asserts `size`, destroys the element at
`data + size - 1`, decrements `size`. -/
def PopBack (v : Vec α) : Vec α :=
  ⟨v.cap, v.elems.dropLast⟩

end Vec

/-- Embeds `std::equal(lhs_.begin(), lhs_.end(), rhs_.begin(), rhs_.end())` — the
four-iterator overload: true exactly when the ranges have equal length and are
pointwise equal. -/
def seqEq [DecidableEq α] : List α → List α → Bool
  | [], [] => true
  | [], _ :: _ => false
  | _ :: _, [] => false
  | a :: as, b :: bs => if a = b then seqEq as bs else false

/-- Embeds `std::lexicographical_compare(first1, last1, first2, last2)`: walks both
ranges in lock-step; at the first position where the elements differ, returns
whether the left element is smaller; if the common portion is equal, returns
whether the left range is strictly shorter. -/
def lexLt [LinearOrder α] : List α → List α → Bool
  | _, [] => false
  | [], _ :: _ => true
  | a :: as, b :: bs => if a < b then true else if b < a then false else lexLt as bs

/-- Embeds `std::lexicographical_compare_three_way(first1, last1, first2, last2)`
with the default `compare_three_way`, returning an ordering. -/
def lexCmp [LinearOrder α] : List α → List α → Ordering
  | [], [] => .eq
  | [], _ :: _ => .lt
  | _ :: _, [] => .gt
  | a :: as, b :: bs => if a < b then .lt else if b < a then .gt else lexCmp as bs

namespace Vec

/-- Embeds `operator==(lhs_, rhs_)` — `std::equal` over the two live ranges. -/
def beqOp [DecidableEq α] (l r : Vec α) : Bool := seqEq l.elems r.elems

/-- Embeds `operator!=(lhs_, rhs_)` — `!(lhs_ == rhs_)`. -/
def bneOp [DecidableEq α] (l r : Vec α) : Bool := !(beqOp l r)

/-- Embeds `operator<(lhs_, rhs_)` — `std::lexicographical_compare` over the live ranges. -/
def bltOp [LinearOrder α] (l r : Vec α) : Bool := lexLt l.elems r.elems

/-- Embeds `operator<=(lhs_, rhs_)` — `!(rhs_ < lhs_)`. -/
def bleOp [LinearOrder α] (l r : Vec α) : Bool := !(bltOp r l)

/-- Embeds `operator>(lhs_, rhs_)` — the source returns `(lhs_ <= rhs_)` (not
`rhs_ < lhs_`), i.e. `operator>` is literally `operator<=`. -/
def bgtOp [LinearOrder α] (l r : Vec α) : Bool := bleOp l r

/-- Embeds `operator>=(lhs_, rhs_)` — `!(lhs_ < rhs_)`. -/
def bgeOp [LinearOrder α] (l r : Vec α) : Bool := !(bltOp l r)

/-- Embeds `operator<=>(lhs_, rhs_)` — `std::lexicographical_compare_three_way` over
the live ranges. -/
def cmpOp [LinearOrder α] (l r : Vec α) : Ordering := lexCmp l.elems r.elems

end Vec

/-- Embeds `std::move_backward(begin() + position, end() - 1, end())` inside
`Emplace`'s non-growth path, acting on the buffer contents `l1` (the original
`size` elements followed by slot `size`, which already holds the moved old
last element, so `l1.length = size + 1`).  It move-assigns slots
`[position, size - 1)` into slots `[position + 1, size)`, rightmost first;
slots `[0, position]` and slot `size` are untouched. -/
def moveBackwardSeg (l1 : List α) (p : Nat) : List α :=
  l1.take (p + 1) ++ (l1.drop p).take (l1.length - 2 - p) ++ l1.drop (l1.length - 1)

/-- The non-growth (`data.Capacity() > size`) branch of `Vector::Emplace` on
the live contents `l`: if `pos_ == end()` the new element is
placement-constructed at `end()`; otherwise the temporary `new_s` is built,
the old last element is placement-moved into slot `size`
(`new (end()) T(std::forward<T>(data[size - 1]))` — modelled as appending
`l.drop (l.length - 1)`, the one-element suffix), the range is shifted right
with `std::move_backward`, and `new_s` is move-assigned into slot `position`. -/
def emplaceNonGrow (l : List α) (p : Nat) (x : α) : List α :=
  if p = l.length then l ++ [x]
  else (moveBackwardSeg (l ++ l.drop (l.length - 1)) p).set p x

namespace Vec

/-- Embeds `Vector::Emplace(pos_, args...)`, with `position = pos_ - begin()`.
Growth branch (`data.Capacity() <= size`): allocate
`RawMemory new_data(size == 0 ? 1 : size * 2)`, construct the new element at
`new_data + position`, transfer old slots `[0, position)` to the same slots
and old `[position, size)` to `[position + 1, size + 1)`, destroy the
originals, swap — the new live contents are
`take position ++ new :: drop position`.  Non-growth branch: `emplaceNonGrow`.
Returns the new state and the index of the returned iterator
(`begin() + position`). -/
def Emplace (v : Vec α) (p : Nat) (x : α) : Vec α × Nat :=
  if v.cap ≤ v.Size then
    (⟨if v.Size = 0 then 1 else v.Size * 2, v.elems.take p ++ x :: v.elems.drop p⟩, p)
  else
    (⟨v.cap, emplaceNonGrow v.elems p x⟩, p)

/-- Embeds `Vector::Insert(pos_, item_)` — both overloads forward to `Emplace`. -/
def Insert (v : Vec α) (p : Nat) (x : α) : Vec α × Nat := v.Emplace p x

end Vec

/-- Embeds `Vector::Erase(pos_)` on the live contents `l`, `position = pos_ - begin()`:
`std::move(begin() + position + 1, end(), begin() + position)` shifts
`[position + 1, size)` left one slot (after which slot `size - 1` still holds
the moved-from last value, modelled as the one-element suffix
`l.drop (l.length - 1)`), then `std::destroy_at(end() - 1)` and `size -= 1`
drop that last slot.  -/
def eraseElems (l : List α) (p : Nat) : List α :=
  ((l.take p ++ l.drop (p + 1)) ++ l.drop (l.length - 1)).dropLast

namespace Vec

/-- Embeds `Vector::Erase(pos_)`: shifts, destroys the vacated last slot, decrements
`size`, and returns `begin() + position`.  Returns the new state and the index
of the returned iterator. -/
def Erase (v : Vec α) (p : Nat) : Vec α × Nat :=
  (⟨v.cap, eraseElems v.elems p⟩, p)

/-- The body of `Vector::operator=(const Vector& other_)` past the
`this != &other_` guard.  When `other_.size <= data.Capacity()` the existing
storage is reused: if `size <= other_.size`, the first `size` elements are
copy-assigned and the remaining `other_.size - size` copy-constructed
(`std::uninitialized_copy_n`); otherwise the first `other_.size` are
copy-assigned and the trailing `size - other_.size` destroyed.  Either way
`size = other_.size` and the capacity is untouched.  Otherwise a copy
`Vector other_copy(other_)` is built (its copy constructor allocates exactly
`other_.size` slots) and swapped in. -/
def copyAssignBody (a b : Vec α) : Vec α :=
  if b.Size ≤ a.cap then
    if a.Size ≤ b.Size then ⟨a.cap, b.elems.take a.Size ++ b.elems.drop a.Size⟩
    else ⟨a.cap, b.elems⟩
  else ⟨b.Size, b.elems⟩

/-- Embeds `Vector::operator=(const Vector& other_)`.  The flag `same` models the
pointer-identity test `this == &other_`: when it holds, the body is skipped and
`*this` is returned unchanged. -/
def copyAssign (a b : Vec α) (same : Bool) : Vec α :=
  if same then a else copyAssignBody a b

end Vec

/-!
Object-lifetime trace model.  For the claims about construction/destruction/
deallocation order we record the primitive lifetime events a reallocating
operation performs.  The pre-existing buffer is buffer `0`; the freshly
allocated one is buffer `1`.
-/

/-- A primitive object-lifetime event: allocating a raw block, constructing an
element in a slot of a block, destroying a slot's element, deallocating a
block. -/
inductive Ev where
  | alloc (buf cap : Nat)
  | construct (buf idx : Nat)
  | destroy (buf idx : Nat)
  | dealloc (buf : Nat)
  deriving DecidableEq, Repr

/-- Embeds `std::uninitialized_move_n` / `std::uninitialized_copy_n` of `n` elements
into slots `[0, n)` of buffer `buf`: one construction per slot, in order. -/
def constructRun (buf n : Nat) : List Ev := (List.range n).map (Ev.construct buf)

/-- Embeds `std::destroy_n` over slots `[0, n)` of buffer `buf`. -/
def destroyRun (buf n : Nat) : List Ev := (List.range n).map (Ev.destroy buf)

/-- Lifetime trace of `Vector::Reserve(n)` on a vector with capacity `cap` and
`sz` live elements: early return when `n <= cap`; else allocate buffer 1 of
capacity `n`, transfer the `sz` elements into it, `std::destroy_n` the
originals, swap — after which `new_data` (now holding the old block) is
destroyed at scope exit and deallocates it. -/
def reserveTrace (cap sz n : Nat) : List Ev :=
  if n ≤ cap then []
  else Ev.alloc 1 n :: (constructRun 1 sz ++ destroyRun 0 sz ++ [Ev.dealloc 0])

/-- Lifetime trace of the growth branch of `Vector::PushBack` /
`Vector::EmplaceBack` (entered when `data.Capacity() <= size`): allocate buffer
1 of capacity `size == 0 ? 1 : size * 2`, construct the new element at slot
`size` of the new buffer, transfer the `sz` old elements, destroy the
originals, swap, and deallocate the old block at scope exit. -/
def pushBackGrowTrace (sz : Nat) : List Ev :=
  Ev.alloc 1 (if sz = 0 then 1 else sz * 2) :: Ev.construct 1 sz ::
    (constructRun 1 sz ++ destroyRun 0 sz ++ [Ev.dealloc 0])

/-- Lifetime trace of the growth branch of `Vector::Emplace` at `position = p`:
allocate, construct the new element at slot `p` of buffer 1, transfer old
slots `[0, p)` then old `[p, sz)` into `[p + 1, sz + 1)`, destroy the
originals, swap, deallocate the old block. -/
def emplaceGrowTrace (sz p : Nat) : List Ev :=
  Ev.alloc 1 (if sz = 0 then 1 else sz * 2) :: Ev.construct 1 p ::
    ((List.range p).map (Ev.construct 1) ++
      (List.range (sz - p)).map (fun i => Ev.construct 1 (p + 1 + i)) ++
      destroyRun 0 sz ++ [Ev.dealloc 0])

/-- Lifetime trace of `Vector::ShrinkToFit()` on a vector with capacity `cap`
and `sz` live elements.  `size == capacity`: early return.  `size == 0`:
`data = RawMemory<T>()` runs `RawMemory`'s move assignment, which overwrites
the old buffer pointer with the temporary's null pointer without deallocating
the old block (the temporary then deallocates only its own null buffer), so no
event touches buffer 0 at all.  Otherwise: allocate buffer 1 of capacity `sz`,
`std::uninitialized_move_n` the `sz` elements into it, swap — `new_data`'s
destructor then deallocates the old block; no `std::destroy_n` of the old
elements is ever performed. -/
def shrinkToFitTrace (cap sz : Nat) : List Ev :=
  if sz = cap then []
  else if sz = 0 then []
  else Ev.alloc 1 sz :: (constructRun 1 sz ++ [Ev.dealloc 0])

/-- The property claimed of every reallocating operation: if the trace
releases the old block (buffer 0), then every one of the `sz` constructed old
elements has been destroyed strictly before the release. -/
def destroysBeforeRelease (tr : List Ev) (sz : Nat) : Prop :=
  Ev.dealloc 0 ∈ tr →
    ∀ i < sz, Ev.destroy 0 i ∈ tr.takeWhile (fun e => !(e = Ev.dealloc 0 : Bool))

instance (tr : List Ev) (sz : Nat) : Decidable (destroysBeforeRelease tr sz) := by
  unfold destroysBeforeRelease; infer_instance

/-!
Exception model.  Element-type operations that can throw are modelled with
oracles; a function returns `Except (Vec α) (Vec α)` where the error payload
is the vector state observable after the exception has propagated out.
-/

/-- Embeds `std::uninitialized_copy_n` of the list under a fallibility oracle `cp`:
elements are copy-constructed in order; if copying element `a` throws
(`cp a = false`), the algorithm destroys the copies it already made and
rethrows — modelled as `none`.  A successful copy of `a` yields the value `a`. -/
def copyAll (cp : α → Bool) : List α → Option (List α)
  | [] => some []
  | a :: as => if cp a then (copyAll cp as).map (a :: ·) else none

/-- The growth branch of `Vector::PushBack` / `Vector::EmplaceBack`
(`data.Capacity() <= size`) under possible exceptions.  `mkNew` is the result
of constructing the new element at slot `size` of the new buffer (`none` if
that construction throws); `cp` is the copy oracle for the element transfer
(on the `std::uninitialized_move_n` branch the transfer is noexcept,
corresponding to `cp` constantly `true`).  If the new element's construction
throws, nothing has touched the old buffer and `new_data`'s destructor releases
the new block: the vector is unchanged.  If a copy throws,
`std::uninitialized_copy_n` destroys the copies already made in the new buffer
and the old buffer was only read: the vector is unchanged.  On success the old
elements are destroyed and the buffers swapped. -/
def pushBackGrowE (v : Vec α) (mkNew : Option α) (cp : α → Bool) :
    Except (Vec α) (Vec α) :=
  match mkNew with
  | none => .error v
  | some x =>
    match copyAll cp v.elems with
    | none => .error v
    | some ys => .ok ⟨if v.Size = 0 then 1 else v.Size * 2, ys ++ [x]⟩

/-- The first `j` completed move-assignments of
`std::move_backward(begin() + position, end() - 1, end())` inside `Emplace`'s
non-growth branch, viewed on the live slots `[0, size)` only (slot `size`,
outside the live range, already received the old last element): slots
`size - 1` down to `size - j` now hold the old values of slots `size - 2` down
to `size - 1 - j`; the earlier slots are untouched. -/
def partShift (b : List α) (j : Nat) : List α :=
  b.take (b.length - j) ++ (b.drop (b.length - 1 - j)).take j

/-- The number of element operations that can throw on the non-growth branch
of `Vector::Emplace` at `position = p` with `n` live elements: for `p = n`
just the placement construction at `end()`; otherwise the temporary's
construction, the placement move of the last element, the `n - 1 - p`
move-assignments of `std::move_backward`, and the final move-assignment into
slot `p`. -/
def numEmplaceSteps (n p : Nat) : Nat := if p = n then 1 else n - p + 2

/-- The non-growth branch of `Vector::Emplace` under possible exceptions.
`failAt = some k` makes the `k`-th fallible element operation (in execution
order, as counted by `numEmplaceSteps`) throw; `failAt = none` means no throw.
The whole branch body sits in a `try` block whose `catch` runs
`operator delete (end());` (releasing only raw memory, constructing or
destroying no element) and rethrows; `size++` comes after the `try`/`catch`,
so it is not executed on a throw.  The error payload is the vector state after
propagation: the live contents reflect however many move-assignments completed
before the throw, and the size is unchanged. -/
def emplaceNonGrowE (v : Vec α) (p : Nat) (x : α) (failAt : Option Nat) :
    Except (Vec α) (Vec α) :=
  let n := v.Size
  if p = n then
    match failAt with
    | some 0 => .error v
    | _ => .ok ⟨v.cap, v.elems ++ [x]⟩
  else
    match failAt with
    | none => .ok ⟨v.cap, emplaceNonGrow v.elems p x⟩
    | some k =>
      if k = 0 then .error v
      else if k = 1 then .error v
      else if k ≤ n - p then .error ⟨v.cap, partShift v.elems (k - 2)⟩
      else if k = n - p + 1 then .error ⟨v.cap, partShift v.elems (n - 1 - p)⟩
      else .ok ⟨v.cap, emplaceNonGrow v.elems p x⟩

/-- A `PushBack`/`PopBack` instruction, for the push/pop-sequence claim. -/
inductive PPOp (α : Type) where
  | push (x : α)
  | pop
  deriving Repr, DecidableEq

namespace Vec

/-- Run one `PushBack`/`PopBack` instruction. -/
def applyPP (v : Vec α) : PPOp α → Vec α
  | .push x => v.PushBack x
  | .pop => v.PopBack

/-- Run a sequence of `PushBack`/`PopBack` instructions. -/
def runPP (v : Vec α) (ops : List (PPOp α)) : Vec α := ops.foldl applyPP v

/-- The side condition of the claim: every `PopBack` in the sequence is
applied to a non-empty vector. -/
def validPP (v : Vec α) : List (PPOp α) → Bool
  | [] => true
  | .push x :: rest => validPP (v.PushBack x) rest
  | .pop :: rest => (0 < v.Size : Bool) && validPP v.PopBack rest

end Vec

/-- Number of `push` instructions in a sequence. -/
def numPushes : List (PPOp α) → Nat
  | [] => 0
  | .push _ :: r => numPushes r + 1
  | .pop :: r => numPushes r

/-- Number of `pop` instructions in a sequence. -/
def numPops : List (PPOp α) → Nat
  | [] => 0
  | .push _ :: r => numPops r
  | .pop :: r => numPops r + 1

/-- Spec-side model for the push/pop claim, following the spec's words
("element values match insertion order"): a pure fold on the element list in
which a push appends its value and a pop removes the most recent surviving
value.  The vector semantics `runPP` is proved to refine it. -/
def stackRun (l : List α) : List (PPOp α) → List α
  | [] => l
  | .push x :: r => stackRun (l ++ [x]) r
  | .pop :: r => stackRun l.dropLast r

/-- Test instantiation of the element type, used for concrete witnesses. -/
abbrev IVec := Vec Int

-- Sanity checks of the basic model on concrete values.
example : (Vec.empty.PushBack (1 : Int)).elems = [1] := by decide
example : (Vec.empty.PushBack (1 : Int)).cap = 1 := by decide
example : ((Vec.empty.PushBack (1 : Int)).PushBack 2).cap = 2 := by decide
example : (Vec.Reserve ⟨2, [5, 7]⟩ 10 : IVec) = ⟨10, [5, 7]⟩ := by decide
example : (Vec.Resize ⟨2, [5, 7]⟩ 1 : IVec) = ⟨2, [5]⟩ := by decide
example : (Vec.Resize ⟨2, [5, 7]⟩ 5 : IVec) = ⟨5, [5, 7, 0, 0, 0]⟩ := by decide
example : (Vec.Emplace (⟨4, [1, 2, 3]⟩ : IVec) 1 9) = (⟨4, [1, 9, 2, 3]⟩, 1) := by decide
example : (Vec.Emplace (⟨4, [1, 2, 3]⟩ : IVec) 3 9) = (⟨4, [1, 2, 3, 9]⟩, 3) := by decide
example : (Vec.Emplace (⟨3, [1, 2, 3]⟩ : IVec) 1 9) = (⟨6, [1, 9, 2, 3]⟩, 1) := by decide
example : (Vec.Emplace (⟨4, [1, 2, 3]⟩ : IVec) 0 9) = (⟨4, [9, 1, 2, 3]⟩, 0) := by decide
example : (Vec.Erase (⟨4, [1, 9, 2, 3]⟩ : IVec) 2) = (⟨4, [1, 9, 3]⟩, 2) := by decide
example : (Vec.Erase (⟨4, [1, 2]⟩ : IVec) 1) = (⟨4, [1]⟩, 1) := by decide
example : (Vec.Erase (⟨4, [1, 2]⟩ : IVec) 0) = (⟨4, [2]⟩, 0) := by decide
example : Vec.bgtOp (⟨1, [1]⟩ : IVec) ⟨1, [2]⟩ = true := by decide
example : Vec.bltOp (⟨1, [1]⟩ : IVec) ⟨1, [2]⟩ = true := by decide
example : Vec.cmpOp (⟨2, [1, 2]⟩ : IVec) ⟨3, [1, 2, 3]⟩ = .lt := by decide
example : Vec.copyAssign (⟨4, [1, 2, 3]⟩ : IVec) ⟨2, [7, 8]⟩ false = ⟨4, [7, 8]⟩ := by decide
example : Vec.copyAssign (⟨1, [1]⟩ : IVec) ⟨3, [7, 8, 9]⟩ false = ⟨3, [7, 8, 9]⟩ := by decide

/-! ## General lemmas about the embedded operations -/

theorem PushBack_elems (v : Vec α) (x : α) : (v.PushBack x).elems = v.elems ++ [x] := by
  unfold Vec.PushBack
  split <;> rfl

theorem PushBack_Size (v : Vec α) (x : α) : (v.PushBack x).Size = v.Size + 1 := by
  simp [Vec.Size, PushBack_elems]

theorem PopBack_elems (v : Vec α) : v.PopBack.elems = v.elems.dropLast := rfl

theorem PopBack_Size (v : Vec α) : v.PopBack.Size = v.Size - 1 := by
  simp [Vec.Size, PopBack_elems]

theorem seqEq_refl [DecidableEq α] (l : List α) : seqEq l l = true := by
  induction l with
  | nil => rfl
  | cons a as ih => simp [seqEq, ih]

/-! ## Claim theorems -/

/-- Claim C1, counterexample: with destination `{1}` (capacity 1) and source
`{2}` (capacity 1), move assignment — whose body is `Swap(other_)` — leaves
the source holding the destination's former contents, so the source does not
end up with `size()==0 && capacity()==0` as the claim states. -/
theorem c1_moveAssign_source_not_empty :
    ¬ ((Vec.moveAssign (⟨1, [(1 : Int)]⟩ : IVec) ⟨1, [2]⟩).2.Size = 0 ∧
      (Vec.moveAssign (⟨1, [(1 : Int)]⟩ : IVec) ⟨1, [2]⟩).2.Capacity = 0) := by
  decide

/-- Claim C1 (amended): move construction leaves the source empty
(`size()==0`, `capacity()==0`) and the destination holding exactly the
source's former element sequence and capacity, without touching any element;
move assignment instead exchanges the contents of destination and source, so
the destination holds the source's former sequence while the source holds the
destination's former contents (empty only if the destination was empty). -/
theorem c1_move_semantics (src dst : Vec α) :
    (Vec.moveCtor src).1.elems = src.elems ∧
    (Vec.moveCtor src).1.Capacity = src.Capacity ∧
    (Vec.moveCtor src).2.Size = 0 ∧
    (Vec.moveCtor src).2.Capacity = 0 ∧
    (Vec.moveAssign dst src).1 = src ∧
    (Vec.moveAssign dst src).2 = dst :=
  ⟨rfl, rfl, rfl, rfl, rfl, rfl⟩

/-- Claim C2, failing input: at `lhs = {1}`, `rhs = {2}` the source's
`operator>` — whose body is `return (lhs_ <= rhs_);` — yields `true`, although
`{2}` is not lexicographically less than `{1}` (the source's own `operator<`
confirms `rhs < lhs` is `false`, and the spec-level lexicographic order
`List.Lex` agrees), so `lhs > rhs` does not agree with `rhs` being
lexicographically less than `lhs`. -/
theorem c2_gt_disagrees_with_lex :
    Vec.bgtOp (⟨1, [(1 : Int)]⟩ : IVec) ⟨1, [2]⟩ = true ∧
    Vec.bltOp (⟨1, [(2 : Int)]⟩ : IVec) ⟨1, [1]⟩ = false ∧
    ¬ List.Lex (· < ·) [(2 : Int)] [1] := by
  refine ⟨by decide, by decide, by decide⟩

/-- Claim C5: `Reserve(n)` is a no-op when `n <= Capacity()`; otherwise it
sets the capacity to exactly `n` while preserving the size and the element
values in order; and it never decreases the capacity. -/
theorem c5_reserve (v : Vec α) (n : Nat) :
    (n ≤ v.Capacity → v.Reserve n = v) ∧
    (v.Capacity < n → (v.Reserve n).Capacity = n) ∧
    (v.Reserve n).Size = v.Size ∧
    (v.Reserve n).elems = v.elems ∧
    v.Capacity ≤ (v.Reserve n).Capacity := by
  unfold Vec.Reserve Vec.Capacity Vec.Size
  by_cases h : n ≤ v.cap
  · simp [h]
  · simp [h]
    omega

/-- Claim C5, witness: `Reserve 10` on a vector with capacity 2 and elements
`[5, 7]` yields capacity exactly 10 with the elements unchanged. -/
theorem c5_reserve_witness :
    ((2 : Nat) ≤ 2 → Vec.Reserve (⟨2, [(5 : Int), 7]⟩ : IVec) 2 = ⟨2, [5, 7]⟩) ∧
    ((2 : Nat) < 10 ∧ (Vec.Reserve (⟨2, [(5 : Int), 7]⟩ : IVec) 10).Capacity = 10) ∧
    (Vec.Reserve (⟨2, [(5 : Int), 7]⟩ : IVec) 10).elems = [5, 7] :=
  ⟨(c5_reserve (⟨2, [(5 : Int), 7]⟩ : IVec) 2).1,
   ⟨by decide, (c5_reserve (⟨2, [(5 : Int), 7]⟩ : IVec) 10).2.1 (by decide)⟩,
   (c5_reserve (⟨2, [(5 : Int), 7]⟩ : IVec) 10).2.2.2.1⟩

/-- Claim C10: copy assignment with the pointer-identity guard taken
(self-assignment) leaves the target unchanged; otherwise the target ends up
with exactly the source's element sequence (hence element-wise equal, with
equal sizes — the source itself, passed by const reference, is never
mutated), and when `b.Size() <= a.Capacity()` held beforehand the target's
capacity is unchanged because the existing storage is reused. -/
theorem c10_copy_assignment [DecidableEq α] (a b : Vec α) :
    Vec.copyAssign a a true = a ∧
    (Vec.copyAssign a b false).elems = b.elems ∧
    (Vec.copyAssign a b false).Size = b.Size ∧
    Vec.beqOp (Vec.copyAssign a b false) b = true ∧
    (b.Size ≤ a.Capacity → (Vec.copyAssign a b false).Capacity = a.Capacity) := by
  have he : (Vec.copyAssign a b false).elems = b.elems := by
    unfold Vec.copyAssign Vec.copyAssignBody
    by_cases h1 : b.Size ≤ a.cap
    · by_cases h2 : a.Size ≤ b.Size <;> simp [h1, h2]
    · simp [h1]
  refine ⟨by simp [Vec.copyAssign], he, by simp [Vec.Size, he], ?_, ?_⟩
  · rw [Vec.beqOp, he]
    exact seqEq_refl b.elems
  · intro h
    unfold Vec.copyAssign Vec.copyAssignBody
    by_cases h2 : a.Size ≤ b.Size <;> simp [Vec.Capacity, h, h2] at h ⊢ <;> simp [h]

/-- Claim C10, witness: assigning `{7, 8}` into a vector with capacity 4 and
elements `[1, 2, 3]` reuses the storage (capacity stays 4) and copies the
source's sequence; self-assignment is the identity. -/
theorem c10_copy_assignment_witness :
    Vec.copyAssign (⟨4, [(1 : Int), 2, 3]⟩ : IVec) ⟨4, [1, 2, 3]⟩ true = ⟨4, [1, 2, 3]⟩ ∧
    (Vec.copyAssign (⟨4, [(1 : Int), 2, 3]⟩ : IVec) ⟨2, [7, 8]⟩ false).elems = [7, 8] ∧
    ((2 : Nat) ≤ 4 ∧
      (Vec.copyAssign (⟨4, [(1 : Int), 2, 3]⟩ : IVec) ⟨2, [7, 8]⟩ false).Capacity = 4) :=
  ⟨(c10_copy_assignment (⟨4, [(1 : Int), 2, 3]⟩ : IVec) ⟨4, [1, 2, 3]⟩).1,
   (c10_copy_assignment (⟨4, [(1 : Int), 2, 3]⟩ : IVec) ⟨2, [7, 8]⟩).2.1,
   ⟨by decide,
    (c10_copy_assignment (⟨4, [(1 : Int), 2, 3]⟩ : IVec) ⟨2, [7, 8]⟩).2.2.2.2 (by decide)⟩⟩

/-- Claim C6: `Resize(n)` always ends with `Size() == n`; when `n < Size()`
it keeps the prefix `[0, n)` and the capacity unchanged (the trailing elements
are destroyed, i.e. dropped from the live sequence); when `n >= Size()` the new
trailing elements are the element type's default value; the capacity becomes
`max(2*Capacity(), n)` when `n` exceeds the capacity and is unchanged
otherwise. -/
theorem Resize_closed [Inhabited α] (v : Vec α) (n : Nat) :
    v.Resize n =
      if n < v.elems.length then ⟨v.cap, v.elems.take n⟩
      else if v.cap < n then
        ⟨max (v.cap * 2) n, v.elems ++ List.replicate (n - v.elems.length) default⟩
      else ⟨v.cap, v.elems ++ List.replicate (n - v.elems.length) default⟩ := by
  unfold Vec.Resize Vec.Reserve Vec.Size
  by_cases h1 : n < v.elems.length
  · simp [h1]
  · by_cases h2 : v.cap < n
    · have hmax : ¬ (max (v.cap * 2) n ≤ v.cap) := by omega
      simp [h1, h2, hmax]
    · simp [h1, h2]

theorem c6_resize [Inhabited α] (v : Vec α) (n : Nat) (hwf : v.Wf) :
    (v.Resize n).Size = n ∧
    (n < v.Size → (v.Resize n).elems = v.elems.take n ∧ (v.Resize n).Capacity = v.Capacity) ∧
    (v.Size ≤ n → (v.Resize n).elems = v.elems ++ List.replicate (n - v.Size) default) ∧
    (v.Capacity < n → (v.Resize n).Capacity = max (2 * v.Capacity) n) ∧
    (n ≤ v.Capacity → (v.Resize n).Capacity = v.Capacity) := by
  have hwf2 : v.elems.length ≤ v.cap := hwf
  rw [Resize_closed]
  simp only [Vec.Size, Vec.Capacity]
  refine ⟨?_, ?_, ?_, ?_, ?_⟩
  · split_ifs with h1 h2 <;> simp [List.length_take] <;> omega
  · intro h
    rw [if_pos h]
    exact ⟨rfl, rfl⟩
  · intro h
    rw [if_neg (not_lt.mpr h)]
    split_ifs with h2
    · rfl
    · rfl
  · intro h
    rw [if_neg (by omega), if_pos h]
    simp [Nat.mul_comm]
  · intro h
    by_cases h1 : n < v.elems.length
    · rw [if_pos h1]
    · rw [if_neg h1, if_neg (by omega)]

/-- Claim C6, witness: `Resize 5` on capacity 2, elements `[5, 7]` gives size
5, elements `[5, 7, 0, 0, 0]` (default-filled tail) and capacity
`max(2*2, 5) = 5`; `Resize 1` keeps the surviving prefix `[5]`. -/
theorem c6_resize_witness :
    (Vec.Resize (⟨2, [(5 : Int), 7]⟩ : IVec) 5).Size = 5 ∧
    (Vec.Resize (⟨2, [(5 : Int), 7]⟩ : IVec) 5).elems = [5, 7, 0, 0, 0] ∧
    (Vec.Resize (⟨2, [(5 : Int), 7]⟩ : IVec) 5).Capacity = 5 ∧
    (Vec.Resize (⟨2, [(5 : Int), 7]⟩ : IVec) 1).elems = [5] := by
  have hwf : Vec.Wf (⟨2, [(5 : Int), 7]⟩ : IVec) := by simp [Vec.Wf]
  refine ⟨(c6_resize _ 5 hwf).1, ?_, ?_, ?_⟩
  · rw [(c6_resize _ 5 hwf).2.2.1 (by decide)]
    decide
  · rw [(c6_resize _ 5 hwf).2.2.2.1 (by decide)]
    decide
  · rw [((c6_resize _ 1 hwf).2.1 (by decide)).1]
    decide

/-! ## The non-growth insertion dance and erasure, as list algebra -/

theorem moveBackwardSeg_closed (l : List α) (a : α) (p : Nat) (hp : p < l.length) :
    moveBackwardSeg (l ++ [a]) p =
      l.take (p + 1) ++ (l.drop p).take (l.length - 1 - p) ++ [a] := by
  unfold moveBackwardSeg
  have h1 : (l ++ [a]).take (p + 1) = l.take (p + 1) :=
    List.take_append_of_le_length (by omega)
  have h2 : (l ++ [a]).drop p = l.drop p ++ [a] :=
    List.drop_append_of_le_length (le_of_lt hp)
  have h3 : (l ++ [a]).length - 2 - p = l.length - 1 - p := by
    simp only [List.length_append, List.length_singleton]
    omega
  have h4 : (l ++ [a]).length - 1 = l.length := by
    simp only [List.length_append, List.length_singleton]
    omega
  have h5 : (l ++ [a]).drop l.length = [a] := List.drop_left' rfl
  have h6 : (l.drop p ++ [a]).take (l.length - 1 - p) = (l.drop p).take (l.length - 1 - p) :=
    List.take_append_of_le_length (by simp only [List.length_drop]; omega)
  rw [h1, h2, h3, h4, h5, h6]

theorem emplaceNonGrow_eq (l : List α) (p : Nat) (x : α) (hp : p ≤ l.length) :
    emplaceNonGrow l p x = l.take p ++ x :: l.drop p := by
  by_cases hpn : p = l.length
  · subst hpn
    simp [emplaceNonGrow]
  · have hplt : p < l.length := lt_of_le_of_ne hp hpn
    obtain ⟨a, ha⟩ : ∃ b, l.drop (l.length - 1) = [b] := by
      apply List.length_eq_one.mp
      rw [List.length_drop]
      omega
    rw [emplaceNonGrow, if_neg hpn, ha, moveBackwardSeg_closed l a p hplt]
    have htail : (l.drop p).take (l.length - 1 - p) ++ [a] = l.drop p := by
      rw [← ha]
      have hdd : l.drop (l.length - 1) = (l.drop p).drop (l.length - 1 - p) := by
        rw [List.drop_drop]
        congr 1
        omega
      rw [hdd, List.take_append_drop]
    rw [List.append_assoc, htail]
    have hlen : (l.take (p + 1)).length = p + 1 := List.length_take_of_le (by omega)
    rw [List.set_eq_take_cons_drop x
      (show p < (l.take (p + 1) ++ l.drop p).length by
        simp only [List.length_append, List.length_take, List.length_drop]
        omega)]
    congr 1
    · rw [List.take_append_of_le_length (by simp only [List.length_take]; omega),
        List.take_take]
      congr 1
      omega
    · congr 1
      exact List.drop_left' hlen

theorem eraseElems_eq (l : List α) (p : Nat) (hp : p < l.length) :
    eraseElems l p = l.take p ++ l.drop (p + 1) := by
  obtain ⟨a, ha⟩ : ∃ b, l.drop (l.length - 1) = [b] := by
    apply List.length_eq_one.mp
    rw [List.length_drop]
    omega
  unfold eraseElems
  rw [ha, List.dropLast_concat]

/-- Claim C7: `Emplace`/`Insert` at any position `p` in `[0, Size()]` yields
the original sequence with the new value spliced at index `p` (size grows by
one, the prefix `[0, p)` is unchanged, the elements from `p` are shifted right
by one), the returned iterator is at index `p`; a subsequent `Erase` at `p`
restores the original sequence, and `Erase` returns an iterator to the removed
position. -/
theorem c7_emplace_erase (v : Vec α) (p : Nat) (x : α) (hp : p ≤ v.Size) :
    (v.Emplace p x).1.Size = v.Size + 1 ∧
    (v.Emplace p x).1.elems = v.elems.take p ++ x :: v.elems.drop p ∧
    (v.Emplace p x).2 = p ∧
    ((v.Emplace p x).1.Erase p).1.elems = v.elems ∧
    ((v.Emplace p x).1.Erase p).1.Capacity = (v.Emplace p x).1.Capacity ∧
    ((v.Emplace p x).1.Erase p).2 = p := by
  have hp' : p ≤ v.elems.length := hp
  have he : (v.Emplace p x).1.elems = v.elems.take p ++ x :: v.elems.drop p := by
    unfold Vec.Emplace
    split
    · rfl
    · simp only []
      exact emplaceNonGrow_eq v.elems p x hp'
  have hlentake : (v.elems.take p).length = p := List.length_take_of_le hp'
  have hsz : (v.Emplace p x).1.Size = v.Size + 1 := by
    simp only [Vec.Size, he, List.length_append, List.length_cons, List.length_take,
      List.length_drop]
    omega
  have hret : (v.Emplace p x).2 = p := by
    unfold Vec.Emplace
    split
    · rfl
    · rfl
  have herase : ((v.Emplace p x).1.Erase p).1.elems = v.elems := by
    show eraseElems (v.Emplace p x).1.elems p = v.elems
    rw [he, eraseElems_eq _ p (by
      simp only [List.length_append, List.length_cons, hlentake, List.length_drop]
      omega)]
    have h1 : (v.elems.take p ++ x :: v.elems.drop p).take p = v.elems.take p := by
      rw [List.take_append_of_le_length (by rw [hlentake])]
      rw [List.take_take]
      congr 1
      omega
    have h2 : (v.elems.take p ++ x :: v.elems.drop p).drop (p + 1) = v.elems.drop p := by
      have : v.elems.take p ++ x :: v.elems.drop p =
          (v.elems.take p ++ [x]) ++ v.elems.drop p := by
        simp
      rw [this, List.drop_left' (by simp [hlentake])]
    rw [h1, h2, List.take_append_drop]
  exact ⟨hsz, he, hret, herase, rfl, rfl⟩

/-- Claim C7, witness: inserting 9 at position 1 of `[1, 2, 3]` (capacity 4)
gives `[1, 9, 2, 3]` with the iterator at index 1, and erasing position 1
restores `[1, 2, 3]`. -/
theorem c7_emplace_erase_witness :
    (1 : Nat) ≤ Vec.Size (⟨4, [(1 : Int), 2, 3]⟩ : IVec) ∧
    (Vec.Emplace (⟨4, [(1 : Int), 2, 3]⟩ : IVec) 1 9).1.elems = [1, 9, 2, 3] ∧
    ((Vec.Emplace (⟨4, [(1 : Int), 2, 3]⟩ : IVec) 1 9).1.Erase 1).1.elems = [1, 2, 3] := by
  refine ⟨by decide, ?_, ?_⟩
  · rw [(c7_emplace_erase (⟨4, [(1 : Int), 2, 3]⟩ : IVec) 1 9 (by decide)).2.1]
    decide
  · rw [(c7_emplace_erase (⟨4, [(1 : Int), 2, 3]⟩ : IVec) 1 9 (by decide)).2.2.2.1]

theorem runPP_cons (v : Vec α) (op : PPOp α) (ops : List (PPOp α)) :
    Vec.runPP v (op :: ops) = Vec.runPP (v.applyPP op) ops := rfl

theorem runPP_size_elems (ops : List (PPOp α)) :
    ∀ v : Vec α, Vec.validPP v ops = true →
      (Vec.runPP v ops).Size + numPops ops = v.Size + numPushes ops ∧
      (Vec.runPP v ops).elems = stackRun v.elems ops := by
  induction ops with
  | nil =>
    intro v _
    exact ⟨rfl, rfl⟩
  | cons op rest ih =>
    intro v hv
    cases op with
    | push x =>
      have hv2 : Vec.validPP (v.PushBack x) rest = true := by
        simpa [Vec.validPP] using hv
      have h := ih (v.PushBack x) hv2
      refine ⟨?_, ?_⟩
      · rw [runPP_cons]
        show (Vec.runPP (v.PushBack x) rest).Size + numPops rest =
          v.Size + (numPushes rest + 1)
        have hps : (v.PushBack x).Size = v.Size + 1 := PushBack_Size v x
        omega
      · rw [runPP_cons]
        show (Vec.runPP (v.PushBack x) rest).elems = stackRun (v.elems ++ [x]) rest
        rw [h.2, PushBack_elems]
    | pop =>
      have hv' : 0 < v.Size ∧ Vec.validPP v.PopBack rest = true := by
        simpa [Vec.validPP] using hv
      have h := ih v.PopBack hv'.2
      refine ⟨?_, ?_⟩
      · rw [runPP_cons]
        show (Vec.runPP v.PopBack rest).Size + (numPops rest + 1) =
          v.Size + numPushes rest
        have h1 := h.1
        have hv0 := hv'.1
        simp only [Vec.Size, PopBack_elems, List.length_dropLast] at h1 hv0 ⊢
        omega
      · rw [runPP_cons]
        show (Vec.runPP v.PopBack rest).elems = stackRun v.elems.dropLast rest
        rw [h.2, PopBack_elems]

/-- Claim C8: for every sequence of `PushBack`/`PopBack` operations from any
starting vector in which each `PopBack` hits a non-empty vector, the final
size equals the initial size plus the number of pushes minus the number of
pops, and the live elements are the surviving values in insertion order
(the pure fold `stackRun`); and the spec's concrete scenario holds: from
empty, `pushBack 1, 2, 3` gives `[1,2,3]`, inserting 9 before position 1
gives `[1,9,2,3]`, erasing position 2 gives `[1,9,3]`, and `popBack` leaves
`[1,9]`. -/
theorem c8_push_pop_sequences (v : Vec α) (ops : List (PPOp α))
    (hv : Vec.validPP v ops = true) :
    ((Vec.runPP v ops).Size : ℤ) = (v.Size : ℤ) + numPushes ops - numPops ops ∧
    (Vec.runPP v ops).elems = stackRun v.elems ops ∧
    (((Vec.empty.PushBack (1 : Int)).PushBack 2).PushBack 3).elems = [1, 2, 3] ∧
    (((Vec.empty.PushBack (1 : Int)).PushBack 2).PushBack 3).Size = 3 ∧
    ((((Vec.empty.PushBack (1 : Int)).PushBack 2).PushBack 3).Insert 1 9).1.elems
      = [1, 9, 2, 3] ∧
    (((((Vec.empty.PushBack (1 : Int)).PushBack 2).PushBack 3).Insert 1 9).1.Erase 2).1.elems
      = [1, 9, 3] ∧
    ((((((Vec.empty.PushBack (1 : Int)).PushBack 2).PushBack 3).Insert 1 9).1.Erase
        2).1.PopBack).elems = [1, 9] := by
  have h := runPP_size_elems ops v hv
  have h1 := h.1
  exact ⟨by omega, h.2, by decide, by decide, by decide, by decide, by decide⟩

/-- Claim C8, witness: running `push 1, push 2, pop` from the empty vector
satisfies the validity side condition, ends with size `0 + 2 - 1 = 1`, and its
elements refine the pure stack fold (which gives `[1]`). -/
theorem c8_push_pop_sequences_witness :
    Vec.validPP (Vec.empty : IVec) [PPOp.push 1, PPOp.push 2, PPOp.pop] = true ∧
    ((Vec.runPP (Vec.empty : IVec) [PPOp.push 1, PPOp.push 2, PPOp.pop]).Size : ℤ) =
      ((Vec.empty : IVec).Size : ℤ) +
        numPushes [PPOp.push (1 : Int), PPOp.push 2, PPOp.pop] -
        numPops [PPOp.push (1 : Int), PPOp.push 2, PPOp.pop] ∧
    (Vec.runPP (Vec.empty : IVec) [PPOp.push 1, PPOp.push 2, PPOp.pop]).elems =
      stackRun (Vec.empty : IVec).elems [PPOp.push 1, PPOp.push 2, PPOp.pop] :=
  ⟨by decide,
   (c8_push_pop_sequences (Vec.empty : IVec) [PPOp.push 1, PPOp.push 2, PPOp.pop]
      (by decide)).1,
   (c8_push_pop_sequences (Vec.empty : IVec) [PPOp.push 1, PPOp.push 2, PPOp.pop]
      (by decide)).2.1⟩

theorem takeWhile_append_single (p : Ev → Bool) (l : List Ev) (d : Ev)
    (hl : ∀ x ∈ l, p x = true) (hd : p d = false) :
    (l ++ [d]).takeWhile p = l := by
  induction l with
  | nil => simp [List.takeWhile_cons, hd]
  | cons a t ih =>
    have ha := hl a (List.mem_cons_self a t)
    simp only [List.cons_append, List.takeWhile_cons, ha, if_true]
    rw [ih (fun x hx => hl x (List.mem_cons_of_mem a hx))]

theorem reserveTrace_destroys (cap sz n : Nat) :
    destroysBeforeRelease (reserveTrace cap sz n) sz := by
  unfold destroysBeforeRelease reserveTrace
  by_cases h : n ≤ cap
  · simp [h]
  · simp only [if_neg h]
    intro _ i hi
    have hpre : (Ev.alloc 1 n :: (constructRun 1 sz ++ destroyRun 0 sz ++ [Ev.dealloc 0])).takeWhile
        (fun e => !(e = Ev.dealloc 0 : Bool)) =
        Ev.alloc 1 n :: (constructRun 1 sz ++ destroyRun 0 sz) := by
      rw [show Ev.alloc 1 n :: (constructRun 1 sz ++ destroyRun 0 sz ++ [Ev.dealloc 0]) =
          (Ev.alloc 1 n :: (constructRun 1 sz ++ destroyRun 0 sz)) ++ [Ev.dealloc 0] by simp]
      apply takeWhile_append_single
      · intro x hx
        rcases List.mem_cons.mp hx with hx | hx
        · subst hx; rfl
        · rcases List.mem_append.mp hx with hx | hx
          · obtain ⟨j, _, rfl⟩ := by simpa [constructRun] using hx
            rfl
          · obtain ⟨j, _, rfl⟩ := by simpa [destroyRun] using hx
            rfl
      · simp
    rw [hpre]
    refine List.mem_cons_of_mem _ (List.mem_append_right _ ?_)
    simp [destroyRun]
    omega

/-- Claim C3, failing input: a vector of size 1, capacity 2.  `ShrinkToFit`'s
reallocating branch releases the old block (`Ev.dealloc 0` occurs) but never
destroys the old buffer's constructed (moved-from) element — no
`Ev.destroy 0 0` occurs anywhere in its trace — so the old storage is
deallocated with a constructed element still alive, violating the claim.  By
contrast `Reserve`, the `PushBack`/`EmplaceBack` growth path, and the
`Emplace` growth path all destroy every old element before the release (shown
here at the same size, and in general by `reserveTrace_destroys`). -/
theorem c3_shrinkToFit_releases_undestroyed :
    Ev.dealloc 0 ∈ shrinkToFitTrace 2 1 ∧
    Ev.destroy 0 0 ∉ shrinkToFitTrace 2 1 ∧
    ¬ destroysBeforeRelease (shrinkToFitTrace 2 1) 1 ∧
    destroysBeforeRelease (reserveTrace 2 1 2) 1 ∧
    destroysBeforeRelease (pushBackGrowTrace 1) 1 ∧
    destroysBeforeRelease (emplaceGrowTrace 1 0) 1 := by
  decide

theorem copyAll_eq_some (cp : α → Bool) :
    ∀ l ys : List α, copyAll cp l = some ys → ys = l := by
  intro l
  induction l with
  | nil =>
    intro ys h
    simp [copyAll] at h
    exact h
  | cons a as ih =>
    intro ys h
    by_cases hc : cp a
    · simp [copyAll, hc] at h
      obtain ⟨zs, hzs, hys⟩ := h
      rw [← hys, ih zs hzs]
    · simp [copyAll, hc] at h

/-- Claim C4: on the growth path of `PushBack`/`EmplaceBack`
(`Capacity() <= Size()`), if constructing the new element throws, or a copy of
an existing element throws during the transfer, the vector's state (size,
capacity and element sequence) is untouched — the error payload is exactly the
original vector; on success the elements are the originals followed by the new
element and the capacity is `size == 0 ? 1 : size * 2`.  Moreover, in the
operation's lifetime trace the new element's construction (at slot `size` of
the new buffer) precedes the transfer of every existing element. -/
theorem c4_pushBack_grow_strong (v : Vec α) (mkNew : Option α) (cp : α → Bool)
    (hg : v.Capacity ≤ v.Size) :
    (∀ e, pushBackGrowE v mkNew cp = Except.error e → e = v) ∧
    (∀ w, pushBackGrowE v mkNew cp = Except.ok w →
      ∃ x, mkNew = some x ∧ w.elems = v.elems ++ [x] ∧
        w.cap = if v.Size = 0 then 1 else v.Size * 2) ∧
    (∃ pre post,
      pushBackGrowTrace v.Size = pre ++ Ev.construct 1 v.Size :: post ∧
      ∀ i < v.Size, Ev.construct 1 i ∉ pre) := by
  refine ⟨?_, ?_, ?_⟩
  · intro e he
    unfold pushBackGrowE at he
    cases mkNew with
    | none =>
      simp at he
      exact he.symm
    | some x =>
      rcases hco : copyAll cp v.elems with _ | ys
      · rw [hco] at he
        simp at he
        exact he.symm
      · rw [hco] at he
        simp at he
  · intro w hw
    unfold pushBackGrowE at hw
    cases mkNew with
    | none => simp at hw
    | some x =>
      rcases hco : copyAll cp v.elems with _ | ys
      · rw [hco] at hw
        simp at hw
      · rw [hco] at hw
        simp at hw
        refine ⟨x, rfl, ?_, ?_⟩
        · rw [← hw, copyAll_eq_some cp v.elems ys hco]
        · rw [← hw]
  · refine ⟨[Ev.alloc 1 (if v.Size = 0 then 1 else v.Size * 2)],
      constructRun 1 v.Size ++ destroyRun 0 v.Size ++ [Ev.dealloc 0], rfl, ?_⟩
    intro i _ hmem
    simp at hmem

/-- Claim C4, witness: at capacity 1, size 1 (growth path), a failed
construction of the new element leaves the vector `⟨1, [5]⟩` unchanged, and a
successful append of 7 yields elements `[5] ++ [7]` with capacity `1 * 2`. -/
theorem c4_pushBack_grow_strong_witness :
    (⟨1, [(5 : Int)]⟩ : IVec).Capacity ≤ (⟨1, [(5 : Int)]⟩ : IVec).Size ∧
    (⟨2, [(5 : Int), 7]⟩ : IVec).elems = [(5 : Int)] ++ [7] := by
  refine ⟨by decide, ?_⟩
  obtain ⟨x, hx, he, hc⟩ :=
    (c4_pushBack_grow_strong (⟨1, [(5 : Int)]⟩ : IVec) (some 7) (fun _ => true)
      (by decide)).2.1 (⟨2, [(5 : Int), 7]⟩ : IVec) rfl
  injection hx with hx
  rw [← hx] at he
  exact he

theorem partShift_length (b : List α) (j : Nat) (hj : j + 1 ≤ b.length) :
    (partShift b j).length = b.length := by
  unfold partShift
  simp only [List.length_append, List.length_take, List.length_drop]
  omega

/-- Claim C9: on the non-growth in-place path of `Emplace`/`Insert`
(spare capacity available), whichever fallible element operation throws — the
temporary's construction, the placement move of the last element, any
move-assignment of the backward shift, or the final move-assignment into the
insertion slot (or, for insertion at `end()`, the placement construction
there) — the exception propagates out of `Emplace` (the `catch` only releases
the raw slot and rethrows) and `size` is not incremented; the capacity is also
unchanged. -/
theorem c9_emplace_nonGrowth_throw (v : Vec α) (p k : Nat) (x : α)
    (hp : p ≤ v.Size) (hcap : v.Size < v.Capacity)
    (hk : k < numEmplaceSteps v.Size p) :
    ∃ e, emplaceNonGrowE v p x (some k) = Except.error e ∧
      e.Size = v.Size ∧ e.Capacity = v.Capacity := by
  have hlen : v.Size = v.elems.length := rfl
  by_cases hpn : p = v.Size
  · have hk0 : k = 0 := by
      rw [numEmplaceSteps, if_pos hpn] at hk
      omega
    subst hk0
    exact ⟨v, by simp [emplaceNonGrowE, hpn], rfl, rfl⟩
  · have hplt : p < v.Size := lt_of_le_of_ne hp hpn
    rw [numEmplaceSteps, if_neg hpn] at hk
    by_cases hk0 : k = 0
    · subst hk0
      exact ⟨v, by simp [emplaceNonGrowE, hpn], rfl, rfl⟩
    · by_cases hk1 : k = 1
      · subst hk1
        exact ⟨v, by simp [emplaceNonGrowE, hpn], rfl, rfl⟩
      · by_cases hk2 : k ≤ v.Size - p
        · refine ⟨⟨v.cap, partShift v.elems (k - 2)⟩,
            by simp [emplaceNonGrowE, hpn, hk0, hk1, hk2], ?_, rfl⟩
          show (partShift v.elems (k - 2)).length = v.Size
          rw [partShift_length v.elems (k - 2) (by omega)]
          exact hlen.symm
        · have hk3 : k = v.Size - p + 1 := by omega
          have hnp : ¬ (v.Size - p = 0) := by omega
          refine ⟨⟨v.cap, partShift v.elems (v.Size - 1 - p)⟩,
            by simp [emplaceNonGrowE, hpn, hk0, hk1, hk2, hk3, hnp], ?_, rfl⟩
          show (partShift v.elems (v.Size - 1 - p)).length = v.Size
          rw [partShift_length v.elems (v.Size - 1 - p) (by omega)]
          exact hlen.symm

/-- Claim C9, witness: inserting at position 0 of `⟨2, [5]⟩` (size 1,
capacity 2: the in-place path) with the temporary's construction throwing
(step 0) propagates the error with size still 1 and capacity still 2. -/
theorem c9_emplace_nonGrowth_throw_witness :
    ((0 : Nat) ≤ Vec.Size (⟨2, [(5 : Int)]⟩ : IVec) ∧
      Vec.Size (⟨2, [(5 : Int)]⟩ : IVec) < Vec.Capacity (⟨2, [(5 : Int)]⟩ : IVec) ∧
      0 < numEmplaceSteps (Vec.Size (⟨2, [(5 : Int)]⟩ : IVec)) 0) ∧
    ∃ e, emplaceNonGrowE (⟨2, [(5 : Int)]⟩ : IVec) 0 7 (some 0) = Except.error e ∧
      e.Size = Vec.Size (⟨2, [(5 : Int)]⟩ : IVec) ∧
      e.Capacity = Vec.Capacity (⟨2, [(5 : Int)]⟩ : IVec) :=
  ⟨⟨by decide, by decide, by decide⟩,
   c9_emplace_nonGrowth_throw (⟨2, [(5 : Int)]⟩ : IVec) 0 0 7
     (by decide) (by decide) (by decide)⟩

/-! ## Supporting facts: the comparison operators other than the broken
`operator>` agree with spec-level lexicographic comparison -/

theorem lexLt_iff_lex [LinearOrder α] (l : List α) :
    ∀ r : List α, lexLt l r = true ↔ List.Lex (· < ·) l r := by
  induction l with
  | nil =>
    intro r
    cases r with
    | nil =>
      simp only [lexLt]
      exact iff_of_false (by simp) (List.Lex.not_nil_right _ _)
    | cons b bs =>
      simp only [lexLt]
      exact iff_of_true trivial List.Lex.nil
  | cons a as ih =>
    intro r
    cases r with
    | nil =>
      simp only [lexLt]
      exact iff_of_false (by simp) (List.Lex.not_nil_right _ _)
    | cons b bs =>
      simp only [lexLt]
      by_cases hab : a < b
      · simp only [if_pos hab]
        exact iff_of_true trivial (List.Lex.rel hab)
      · by_cases hba : b < a
        · simp only [if_neg hab, if_pos hba]
          refine iff_of_false (by simp) ?_
          intro h
          cases h with
          | cons h => exact absurd hba (lt_irrefl a)
          | rel h => exact absurd h hab
        · have hab2 : a = b := le_antisymm (not_lt.mp hba) (not_lt.mp hab)
          subst hab2
          simp only [if_neg hab]
          rw [ih bs]
          constructor
          · exact fun h => List.Lex.cons h
          · intro h
            cases h with
            | cons h => exact h
            | rel h => exact absurd h hab

theorem seqEq_iff [DecidableEq α] (l : List α) :
    ∀ r : List α, seqEq l r = true ↔ l = r := by
  induction l with
  | nil =>
    intro r
    cases r with
    | nil => simp [seqEq]
    | cons b bs => simp [seqEq]
  | cons a as ih =>
    intro r
    cases r with
    | nil => simp [seqEq]
    | cons b bs =>
      by_cases hab : a = b
      · simp [seqEq, hab, ih bs]
      · simp [seqEq, hab]

theorem beqOp_agrees [DecidableEq α] (l r : Vec α) :
    Vec.beqOp l r = true ↔ l.elems = r.elems := seqEq_iff l.elems r.elems

theorem bltOp_agrees [LinearOrder α] (l r : Vec α) :
    Vec.bltOp l r = true ↔ List.Lex (· < ·) l.elems r.elems := lexLt_iff_lex l.elems r.elems

theorem bleOp_agrees [LinearOrder α] (l r : Vec α) :
    Vec.bleOp l r = true ↔ ¬ List.Lex (· < ·) r.elems l.elems := by
  rw [Vec.bleOp, Bool.not_eq_true', ← Bool.not_eq_true (Vec.bltOp r l)]
  exact not_congr (bltOp_agrees r l)

theorem bgeOp_agrees [LinearOrder α] (l r : Vec α) :
    Vec.bgeOp l r = true ↔ ¬ List.Lex (· < ·) l.elems r.elems := by
  rw [Vec.bgeOp, Bool.not_eq_true', ← Bool.not_eq_true (Vec.bltOp l r)]
  exact not_congr (bltOp_agrees l r)

theorem bneOp_agrees [DecidableEq α] (l r : Vec α) :
    Vec.bneOp l r = true ↔ l.elems ≠ r.elems := by
  rw [Vec.bneOp, Bool.not_eq_true', ← Bool.not_eq_true (Vec.beqOp l r)]
  exact not_congr (beqOp_agrees l r)

theorem bgtOp_is_bleOp [LinearOrder α] (l r : Vec α) :
    Vec.bgtOp l r = Vec.bleOp l r := rfl
